import Mathlib

/-!
Shallow embedding of the scalar reverse-mode autograd engine of
`src/autograd.rs`.  The Rust code builds a DAG of reference-counted
`Value` nodes, each holding a mutable scalar `data`, a mutable gradient
accumulator `grad`, and a producer descriptor `back`.  Nodes are
distinguished by a unique identity label.  We embed this as an arena:
a graph is a list of nodes, a node reference is its index in the list,
and the index plays the role of the unique identity.  Construction only
ever appends, so every operand index is strictly smaller than the index
of its consumer, which is the acyclicity invariant `WF` below.

Scalars are embedded as rationals, idealizing the source's `f64`
arithmetic.  The transcendental forward value of `tanh` has no rational
counterpart, so graph construction for tanh is parameterized by the
function computing that value; the backward pass itself never needs it,
because the Tanh rule reuses the stored forward value.
-/

namespace Autograd

/-- Producer descriptor of a node, mirroring `enum Op` in the source:
a leaf has no producer, the other variants record operand indices. -/
inductive Op where
  | none
  | sum (x y : Nat)
  | mul (x y : Nat)
  | pow (x y : Nat)
  | tanh (x : Nat)
deriving DecidableEq

/-- A graph node, mirroring `struct Value`: scalar value, gradient
accumulator, and producer.  The identity label is the node's index in
the graph list, so it is not stored. -/
structure Value where
  data : ℚ
  grad : ℚ
  back : Op
deriving DecidableEq

/-- A graph is the arena of nodes; node references are indices. -/
abbrev Graph := List Value

/-- Junk node returned for out-of-range indices. -/
def defaultValue : Value := ⟨0, 0, Op.none⟩

/-- Dereference a node index. -/
def getV (g : Graph) (i : Nat) : Value := g.getD i defaultValue

/-- The gradient accumulator of node `i`. -/
def gradOf (g : Graph) (i : Nat) : ℚ := (getV g i).grad

/-- Operand list of a producer, mirroring `fn prev`. -/
def prev : Op → List Nat
  | Op.none => []
  | Op.sum x y => [x, y]
  | Op.mul x y => [x, y]
  | Op.pow x y => [x, y]
  | Op.tanh x => [x]

/-- Overwrite the gradient of node `i`, mirroring `*grad.borrow_mut() = v`. -/
def setGrad (g : Graph) (i : Nat) (v : ℚ) : Graph :=
  g.set i { getV g i with grad := v }

/-- Accumulate into the gradient of node `i`, mirroring `*grad.borrow_mut() += v`. -/
def addGrad (g : Graph) (i : Nat) (v : ℚ) : Graph :=
  setGrad g i ((getV g i).grad + v)

/-- Rational model of `f64::powf` as used by the source: every exponent
the program ever passes is integral (the network uses `2.0`, `div` uses
`-1.0`), and on integral exponents `powf` is integer exponentiation.
Non-integral exponents (where `powf` leaves the rationals) are mapped to
a junk value. -/
def powf (x n : ℚ) : ℚ := if n.den = 1 then x ^ n.num else 0

/-- One backward step at node `i`, mirroring `fn backward_step`: pattern
match on the producer, compute the local derivatives, and add local
derivative times this node's current gradient into each operand's
gradient, in source order. -/
def backwardStep (g : Graph) (i : Nat) : Graph :=
  match (getV g i).back with
  | Op.none => g
  | Op.sum x y =>
      let g1 := addGrad g x (1 * (getV g i).grad)
      addGrad g1 y (1 * (getV g1 i).grad)
  | Op.mul x y =>
      let xd := (getV g y).data
      let yd := (getV g x).data
      let g1 := addGrad g x (xd * (getV g i).grad)
      addGrad g1 y (yd * (getV g1 i).grad)
  | Op.pow x y =>
      let xd := (getV g y).data * powf (getV g x).data ((getV g y).data - 1)
      addGrad g x (xd * (getV g i).grad)
  | Op.tanh x =>
      let xd := 1 - (getV g i).data ^ 2
      addGrad g x (xd * (getV g i).grad)

/-- Depth-first post-order traversal from node `i`, mirroring
`fn topological_sort`: skip if visited, otherwise mark visited, traverse
the operands in order (the fold is the `for v in prev(value)` loop),
then append the node itself.  The state is the pair of the output
sequence and the visited set (as a list).  The `fuel` argument makes the
recursion structural; since every operand index is smaller than its
consumer's, `fuel` larger than the start node never runs out (proved
below). -/
def topoSortAux (g : Graph) : Nat → Nat → List Nat × List Nat → List Nat × List Nat
  | 0, _, st => st
  | fuel + 1, i, st =>
      if i ∈ st.2 then st
      else
        let st1 := (prev (getV g i).back).foldl
          (fun s j => topoSortAux g fuel j s) (st.1, i :: st.2)
        (st1.1 ++ [i], st1.2)

/-- The operand loop of the traversal, named for the proofs below; it
is definitionally the fold inside `topoSortAux`. -/
def topoSortList (g : Graph) (fuel : Nat) (js : List Nat)
    (st : List Nat × List Nat) : List Nat × List Nat :=
  js.foldl (fun s j => topoSortAux g fuel j s) st

/-- The topological order of the graph reachable from `root`, mirroring
the `topological_sort(self, &mut topo, &mut HashSet::new())` call in
`Tensor::backward`; the graph length is always enough fuel. -/
def topologicalSort (g : Graph) (root : Nat) : List Nat :=
  (topoSortAux g g.length root ([], [])).1

/-- Run backward steps over a list of nodes in order; this is the
`for v in topo.iter().rev()` loop, applied to the reversed order. -/
def backwardList (g : Graph) (l : List Nat) : Graph :=
  l.foldl backwardStep g

/-- The backward pass, mirroring `Tensor::backward`: seed the root's
gradient to 1, topologically sort, and run the steps in reverse order. -/
def backward (g : Graph) (root : Nat) : Graph :=
  let g1 := setGrad g root 1
  backwardList g1 (topologicalSort g1 root).reverse

/-- Well-formed graph: every operand index is strictly smaller than the
index of the node consuming it.  Graphs built by the constructors below
satisfy this by construction, mirroring that Rust `Rc` operands always
predate their consumer. -/
def WF (g : Graph) : Prop :=
  ∀ i, i < g.length → ∀ j ∈ prev (getV g i).back, j < i

instance : DecidablePred WF := fun g =>
  decidable_of_iff (∀ i < g.length, ∀ j ∈ prev (getV g i).back, j < i) Iff.rfl

/-- Leaf constructor, mirroring `Tensor::new_with_grad` (and
`Tensor::new`, which passes gradient 0): append a fresh producerless
node and return its index. -/
def leafT (g : Graph) (d gr : ℚ) : Graph × Nat :=
  (g ++ [⟨d, gr, Op.none⟩], g.length)

/-- Sum constructor, mirroring `Tensor::add`. -/
def addT (g : Graph) (x y : Nat) : Graph × Nat :=
  (g ++ [⟨(getV g x).data + (getV g y).data, 0, Op.sum x y⟩], g.length)

/-- Product constructor, mirroring `Tensor::mul`. -/
def mulT (g : Graph) (x y : Nat) : Graph × Nat :=
  (g ++ [⟨(getV g x).data * (getV g y).data, 0, Op.mul x y⟩], g.length)

/-- Power constructor, mirroring `Tensor::pow`: the exponent is wrapped
in a fresh leaf node (`value(other, 0.0)` in the source) and the new
node's value is `powf` of the base's value and the exponent. -/
def powT (g : Graph) (x : Nat) (n : ℚ) : Graph × Nat :=
  let g1 := g ++ [⟨n, 0, Op.none⟩]
  (g1 ++ [⟨powf (getV g x).data n, 0, Op.pow x g.length⟩], g1.length)

/-- Tanh constructor, mirroring `Tensor::tanh`.  The forward value in
the source is the transcendental `(e ^ (2 d) - 1) / (e ^ (2 d) + 1)`,
which has no rational counterpart; the parameter `th` stands for that
function, and every theorem about tanh either holds for all `th` or
constrains `th` at the single point where it is consulted. -/
def tanhT (th : ℚ → ℚ) (g : Graph) (x : Nat) : Graph × Nat :=
  (g ++ [⟨th (getV g x).data, 0, Op.tanh x⟩], g.length)

/-- Difference, mirroring `Tensor::sub`:
`self.add(&other.mul(&Tensor::new(-1.0)))`. -/
def subT (g : Graph) (x y : Nat) : Graph × Nat :=
  let p1 := leafT g (-1) 0
  let p2 := mulT p1.1 y p1.2
  addT p2.1 x p2.2

/-- Quotient, mirroring `Tensor::div`: `self.mul(&other.pow(-1.0))`. -/
def divT (g : Graph) (x y : Nat) : Graph × Nat :=
  let p1 := powT g y (-1)
  mulT p1.1 x p1.2

/-- Chain-rule contribution that one backward step at node `i` adds to
the gradient of node `j`, per unit of node `i`'s own gradient: the sum,
over the occurrences of `j` among the operands of `i`, of the local
derivative of `i` with respect to that operand slot.  This transcribes
the rule table of `fn backward_step`; note the Pow case routes nothing
to the exponent slot. -/
def deriv (g : Graph) (i j : Nat) : ℚ :=
  match (getV g i).back with
  | Op.none => 0
  | Op.sum x y => (if x = j then 1 else 0) + (if y = j then 1 else 0)
  | Op.mul x y =>
      (if x = j then (getV g y).data else 0) +
      (if y = j then (getV g x).data else 0)
  | Op.pow x y =>
      if x = j then (getV g y).data * powf (getV g x).data ((getV g y).data - 1) else 0
  | Op.tanh x => if x = j then 1 - (getV g i).data ^ 2 else 0

/-- `Reach g i m` holds when node `m` is reachable from node `i` by
following producer (operand) edges. -/
inductive Reach (g : Graph) : Nat → Nat → Prop where
  | refl (i : Nat) : Reach g i i
  | tail {i j k : Nat} : Reach g i j → k ∈ prev (getV g j).back → Reach g i k

/-- Every node of the sequence comes strictly after all the nodes it
references as operands: whichever way the sequence is split around a
node, that node's operands lie in the left part. -/
def OpsBefore (g : Graph) (l : List Nat) : Prop :=
  ∀ l1 j l2, l = l1 ++ j :: l2 → ∀ k ∈ prev (getV g j).back, k ∈ l1

/-- Preconditions of a traversal call: the start nodes are in range and
within fuel, every already-gray node (visited but not yet output) lies
strictly above every start node, the output is a duplicate-free ordered
prefix covered by the visited set, and the visited set is in range. -/
structure SortPre (g : Graph) (src : List Nat) (fuel : Nat)
    (st : List Nat × List Nat) : Prop where
  srcLen : ∀ j ∈ src, j < g.length
  srcFuel : ∀ j ∈ src, j < fuel
  gray : ∀ j ∈ src, ∀ m ∈ st.2, m ∉ st.1 → j < m
  sub : ∀ m ∈ st.1, m ∈ st.2
  nodup : st.1.Nodup
  ob : OpsBefore g st.1
  visLen : ∀ m ∈ st.2, m < g.length

/-- Postconditions of a traversal call: the output grows at the end
only, the visited set grows, the invariants are maintained, the set of
gray nodes is unchanged, every start node ends up in the output, and
everything newly output or visited is reachable from a start node. -/
structure SortPost (g : Graph) (src : List Nat)
    (st st' : List Nat × List Nat) : Prop where
  topoExt : ∃ d, st'.1 = st.1 ++ d
  visMono : ∀ m ∈ st.2, m ∈ st'.2
  sub : ∀ m ∈ st'.1, m ∈ st'.2
  nodup : st'.1.Nodup
  ob : OpsBefore g st'.1
  grayEq : ∀ m, (m ∈ st'.2 ∧ m ∉ st'.1) ↔ (m ∈ st.2 ∧ m ∉ st.1)
  srcIn : ∀ j ∈ src, j ∈ st'.1
  topoNew : ∀ m ∈ st'.1, m ∈ st.1 ∨ ∃ j ∈ src, Reach g j m
  visLen : ∀ m ∈ st'.2, m < g.length

/-- A step order is stable when a node, once processed, is never an
operand of a node processed at the same time or later; the reverse of a
topological order has this property. -/
def StabOrder (g : Graph) (l : List Nat) : Prop :=
  ∀ l1 i l2, l = l1 ++ i :: l2 → ∀ k ∈ i :: l2, i ∉ prev (getV g k).back

/-- Node `y` is consumed only as the exponent slot of Pow nodes: no node
uses it as a Sum, Mul or Tanh operand or as a Pow base.  This is the
situation of every exponent leaf created by the power constructor. -/
def expOnly (g : Graph) (y : Nat) : Bool :=
  (List.range g.length).all fun i =>
    match (getV g i).back with
    | Op.pow x _ => decide (x ≠ y)
    | op => decide (y ∉ prev op)

/-! Concrete graphs for the test scenarios of the specification, built
with the constructors exactly as the corresponding tests build them. -/

/-- Scenario 5 (diamond sharing), as built by the test
`backward_on_dag_should_execute_on_topological_sort`:
`a.mul(&b).add(&c.mul(&a.mul(&b)))` over a = leaf 3, b = leaf 3,
c = leaf 2; the leaves get indices 0, 1, 2 and the root index 6. -/
def c1Build : Graph × Nat :=
  let p1 := leafT [] 3 0
  let p2 := leafT p1.1 3 0
  let p3 := leafT p2.1 2 0
  let p4 := mulT p3.1 p1.2 p2.2
  let p5 := mulT p4.1 p1.2 p2.2
  let p6 := mulT p5.1 p3.2 p5.2
  addT p6.1 p4.2 p6.2

/-- Scenario 2: a = leaf(0, gradient 0.1), b = leaf(0, gradient 0.2),
x = sum(a, b); leaves at indices 0 and 1, root at 2. -/
def c3Build : Graph × Nat :=
  let p1 := leafT [] 0 (1/10)
  let p2 := leafT p1.1 0 (1/5)
  addT p2.1 p1.2 p2.2

/-- Scenario 4: a = leaf(2, gradient 0.1), x = power(a, 3); the base is
index 0, the fresh exponent leaf index 1, the root index 2. -/
def c4Build : Graph × Nat :=
  let p1 := leafT [] 2 (1/10)
  powT p1.1 p1.2 3

/-- Rational reference value of tanh(0.8814), correct to 16 digits. -/
def thB : ℚ → ℚ := fun _ => 7071199874301226/10000000000000000

/-- Scenario 3 as the source test builds it: a = leaf(0.8814, gradient
0.5), x = tanh(a), for an arbitrary model `th` of the tanh value. -/
def c5BuildG (th : ℚ → ℚ) : Graph × Nat :=
  let p1 := leafT [] (4407/5000) (1/2)
  tanhT th p1.1 p1.2

/-- Scenario 3 as the specification words it: a = leaf(0.8814) with the
default zero gradient, x = tanh(a), with the tanh value modelled by the
reference rational `thB`. -/
def c5Build0 : Graph × Nat :=
  let p1 := leafT [] (4407/5000) 0
  tanhT thB p1.1 p1.2

/-- The difference test `backward_on_sub_should_add_gradient_to_the_variables`:
a = leaf(3, gradient 0.5), b = leaf(2, gradient -0.5), x = a - b. -/
def subBuild : Graph × Nat :=
  let p1 := leafT [] 3 (1/2)
  let p2 := leafT p1.1 2 (-(1/2))
  subT p2.1 p1.2 p2.2

/-- The quotient test `backward_on_div_should_add_gradient_to_the_variables`:
a = leaf(3, gradient 0.1), b = leaf(2, gradient 0.1), x = a / b. -/
def divBuild : Graph × Nat :=
  let p1 := leafT [] 3 (1/10)
  let p2 := leafT p1.1 2 (1/10)
  divT p2.1 p1.2 p2.2

/-! Basic facts about node access and the mutating primitives. -/

theorem getV_nil (i : Nat) : getV [] i = defaultValue := by
  cases i <;> rfl

theorem getV_set_self {g : Graph} {i : Nat} (v : Value) (h : i < g.length) :
    getV (g.set i v) i = v := by
  induction g generalizing i with
  | nil => simp at h
  | cons a l ih =>
      cases i with
      | zero => rfl
      | succ n => exact ih (Nat.lt_of_succ_lt_succ h)

theorem getV_set_ne (g : Graph) {i j : Nat} (v : Value) (h : i ≠ j) :
    getV (g.set i v) j = getV g j := by
  induction g generalizing i j with
  | nil => rfl
  | cons a l ih =>
      cases i with
      | zero =>
          cases j with
          | zero => exact absurd rfl h
          | succ m => rfl
      | succ n =>
          cases j with
          | zero => rfl
          | succ m => exact ih (fun hnm => h (by rw [hnm]))

theorem set_of_le {g : Graph} {i : Nat} (v : Value) (h : g.length ≤ i) :
    g.set i v = g := by
  induction g generalizing i with
  | nil => rfl
  | cons a l ih =>
      cases i with
      | zero => simp at h
      | succ n => simpa using ih (Nat.le_of_succ_le_succ h)

theorem getV_append_lt {g : Graph} {i : Nat} (tail : Graph) (h : i < g.length) :
    getV (g ++ tail) i = getV g i := by
  induction g generalizing i with
  | nil => simp at h
  | cons a l ih =>
      cases i with
      | zero => rfl
      | succ n => exact ih (Nat.lt_of_succ_lt_succ h)

theorem getV_append_self (g : Graph) (v : Value) (tail : Graph) :
    getV (g ++ v :: tail) g.length = v := by
  induction g with
  | nil => rfl
  | cons a l ih => exact ih

theorem length_setGrad (g : Graph) (i : Nat) (v : ℚ) :
    (setGrad g i v).length = g.length := by
  simp [setGrad]

theorem length_addGrad (g : Graph) (i : Nat) (v : ℚ) :
    (addGrad g i v).length = g.length := length_setGrad ..

theorem gradOf_setGrad_self {g : Graph} {i : Nat} {v : ℚ} (h : i < g.length) :
    gradOf (setGrad g i v) i = v := by
  simp [gradOf, setGrad, getV_set_self _ h]

theorem gradOf_setGrad_ne {g : Graph} {i j : Nat} {v : ℚ} (h : i ≠ j) :
    gradOf (setGrad g i v) j = gradOf g j := by
  simp [gradOf, setGrad, getV_set_ne _ _ h]

theorem data_setGrad (g : Graph) (i : Nat) (v : ℚ) (j : Nat) :
    (getV (setGrad g i v) j).data = (getV g j).data := by
  by_cases hij : i = j
  · subst hij
    by_cases hi : i < g.length
    · simp [setGrad, getV_set_self _ hi]
    · simp [setGrad, set_of_le _ (Nat.le_of_not_lt hi)]
  · simp [setGrad, getV_set_ne _ _ hij]

theorem back_setGrad (g : Graph) (i : Nat) (v : ℚ) (j : Nat) :
    (getV (setGrad g i v) j).back = (getV g j).back := by
  by_cases hij : i = j
  · subst hij
    by_cases hi : i < g.length
    · simp [setGrad, getV_set_self _ hi]
    · simp [setGrad, set_of_le _ (Nat.le_of_not_lt hi)]
  · simp [setGrad, getV_set_ne _ _ hij]

theorem gradOf_addGrad_self {g : Graph} {i : Nat} {v : ℚ} (h : i < g.length) :
    gradOf (addGrad g i v) i = gradOf g i + v := by
  unfold addGrad
  rw [gradOf_setGrad_self h]
  rfl

theorem gradOf_addGrad_ne {g : Graph} {i j : Nat} {v : ℚ} (h : i ≠ j) :
    gradOf (addGrad g i v) j = gradOf g j := gradOf_setGrad_ne h

theorem gradOf_addGrad {g : Graph} {i : Nat} {v : ℚ} (h : i < g.length) (j : Nat) :
    gradOf (addGrad g i v) j = gradOf g j + if i = j then v else 0 := by
  by_cases hij : i = j
  · subst hij; simp [gradOf_addGrad_self h]
  · simp [hij, gradOf_addGrad_ne hij]

/-! Frame facts: the backward machinery mutates only gradients. -/

theorem data_backwardStep (g : Graph) (i j : Nat) :
    (getV (backwardStep g i) j).data = (getV g j).data := by
  unfold backwardStep
  cases (getV g i).back <;> simp [addGrad, data_setGrad]

theorem back_backwardStep (g : Graph) (i j : Nat) :
    (getV (backwardStep g i) j).back = (getV g j).back := by
  unfold backwardStep
  cases (getV g i).back <;> simp [addGrad, back_setGrad]

theorem length_backwardStep (g : Graph) (i : Nat) :
    (backwardStep g i).length = g.length := by
  unfold backwardStep
  cases (getV g i).back <;> simp [length_addGrad]

theorem data_backwardList (g : Graph) (l : List Nat) (j : Nat) :
    (getV (backwardList g l) j).data = (getV g j).data := by
  induction l generalizing g with
  | nil => rfl
  | cons i rest ih =>
      simp only [backwardList, List.foldl_cons] at *
      rw [ih, data_backwardStep]

theorem back_backwardList (g : Graph) (l : List Nat) (j : Nat) :
    (getV (backwardList g l) j).back = (getV g j).back := by
  induction l generalizing g with
  | nil => rfl
  | cons i rest ih =>
      simp only [backwardList, List.foldl_cons] at *
      rw [ih, back_backwardStep]

theorem length_backwardList (g : Graph) (l : List Nat) :
    (backwardList g l).length = g.length := by
  induction l generalizing g with
  | nil => rfl
  | cons i rest ih =>
      simp only [backwardList, List.foldl_cons] at *
      rw [ih, length_backwardStep]

theorem data_backward (g : Graph) (root j : Nat) :
    (getV (backward g root) j).data = (getV g j).data := by
  unfold backward
  rw [data_backwardList, data_setGrad]

theorem back_backward (g : Graph) (root j : Nat) :
    (getV (backward g root) j).back = (getV g j).back := by
  unfold backward
  rw [back_backwardList, back_setGrad]

theorem length_backward (g : Graph) (root : Nat) :
    (backward g root).length = g.length := by
  unfold backward
  rw [length_backwardList, length_setGrad]

/-- The chain-rule contribution table only reads values and producers,
so it is unchanged by anything that only mutates gradients. -/
theorem deriv_congr {g1 g2 : Graph}
    (hd : ∀ k, (getV g1 k).data = (getV g2 k).data)
    (hb : ∀ k, (getV g1 k).back = (getV g2 k).back) (i j : Nat) :
    deriv g1 i j = deriv g2 i j := by
  unfold deriv
  rw [hb i]
  cases (getV g2 i).back <;> simp [hd]

/-! The gradient effect of a single backward step. -/

/-- One backward step at node `i` adds, into every node `j`, the
chain-rule contribution `deriv g i j` times node `i`'s current gradient.
The side conditions (operands in range and distinct from `i`) hold for
every node of a well-formed graph. -/
theorem gradOf_backwardStep (g : Graph) (i : Nat)
    (hops : ∀ k ∈ prev (getV g i).back, k < g.length ∧ k ≠ i) (j : Nat) :
    gradOf (backwardStep g i) j = gradOf g j + deriv g i j * gradOf g i := by
  rcases h : (getV g i).back with _ | ⟨x, y⟩ | ⟨x, y⟩ | ⟨x, y⟩ | x
  · simp only [backwardStep, deriv, h]
    ring
  · obtain ⟨hx, hx'⟩ := hops x (by simp [h, prev])
    obtain ⟨hy, hy'⟩ := hops y (by simp [h, prev])
    simp only [backwardStep, deriv, h]
    have hgi : (getV (addGrad g x (1 * (getV g i).grad)) i).grad = (getV g i).grad :=
      gradOf_addGrad_ne hx'
    rw [hgi]
    have hy2 : y < (addGrad g x (1 * (getV g i).grad)).length := by
      rw [length_addGrad]; exact hy
    rw [gradOf_addGrad hy2 j, gradOf_addGrad hx j]
    by_cases hxj : x = j <;> by_cases hyj : y = j <;>
      (simp only [hxj, hyj, gradOf, if_pos, if_neg, ite_true, ite_false]; try simp) <;> try ring
  · obtain ⟨hx, hx'⟩ := hops x (by simp [h, prev])
    obtain ⟨hy, hy'⟩ := hops y (by simp [h, prev])
    simp only [backwardStep, deriv, h]
    have hgi : (getV (addGrad g x ((getV g y).data * (getV g i).grad)) i).grad
        = (getV g i).grad := gradOf_addGrad_ne hx'
    rw [hgi]
    have hy2 : y < (addGrad g x ((getV g y).data * (getV g i).grad)).length := by
      rw [length_addGrad]; exact hy
    rw [gradOf_addGrad hy2 j, gradOf_addGrad hx j]
    by_cases hxj : x = j <;> by_cases hyj : y = j <;>
      (simp only [hxj, hyj, gradOf, if_pos, if_neg, ite_true, ite_false]; try simp) <;> try ring
  · obtain ⟨hx, hx'⟩ := hops x (by simp [h, prev])
    simp only [backwardStep, deriv, h]
    rw [gradOf_addGrad hx j]
    by_cases hxj : x = j <;> simp [hxj, gradOf]
  · obtain ⟨hx, hx'⟩ := hops x (by simp [h, prev])
    simp only [backwardStep, deriv, h]
    rw [gradOf_addGrad hx j]
    by_cases hxj : x = j <;> simp [hxj, gradOf]

/-- A backward step at a node not consuming `i` leaves `i`'s gradient
alone. -/
theorem gradOf_backwardStep_other (g : Graph) {k i : Nat}
    (hni : i ∉ prev (getV g k).back) :
    gradOf (backwardStep g k) i = gradOf g i := by
  rcases h : (getV g k).back with _ | ⟨x, y⟩ | ⟨x, y⟩ | ⟨x, y⟩ | x <;>
    simp only [h, prev, List.mem_cons, List.not_mem_nil, or_false] at hni <;>
    simp only [backwardStep, h]
  · rw [gradOf_addGrad_ne (fun hyi => hni (Or.inr hyi.symm)),
      gradOf_addGrad_ne (fun hxi => hni (Or.inl hxi.symm))]
  · rw [gradOf_addGrad_ne (fun hyi => hni (Or.inr hyi.symm)),
      gradOf_addGrad_ne (fun hxi => hni (Or.inl hxi.symm))]
  · rw [gradOf_addGrad_ne (fun hxi => hni (Or.inl hxi.symm))]
  · rw [gradOf_addGrad_ne (fun hxi => hni hxi.symm)]

/-- A run of backward steps at nodes none of which consume `i` leaves
`i`'s gradient alone. -/
theorem gradOf_backwardList_other (g : Graph) (l : List Nat) {i : Nat}
    (hni : ∀ k ∈ l, i ∉ prev (getV g k).back) :
    gradOf (backwardList g l) i = gradOf g i := by
  induction l generalizing g with
  | nil => rfl
  | cons k rest ih =>
      have hBL : backwardList g (k :: rest) = backwardList (backwardStep g k) rest := rfl
      rw [hBL, ih (backwardStep g k) (fun k' hk' => by
        rw [back_backwardStep]; exact hni k' (List.mem_cons_of_mem _ hk'))]
      exact gradOf_backwardStep_other g (hni k (List.mem_cons_self _ _))

theorem stabOrder_tail {g : Graph} {i : Nat} {rest : List Nat}
    (h : StabOrder g (i :: rest)) : StabOrder g rest := by
  intro l1 i' l2 hdec
  exact h (i :: l1) i' l2 (by rw [hdec]; rfl)

/-- Gradient accumulation over a stable step order: the final gradient
of every node `j` is its starting gradient plus the sum, over all
processed nodes `i`, of the chain-rule contribution of `i` to `j`
weighted by `i`'s own final gradient.  This is exactly the sum of the
independent partial contributions of all of `j`'s consumers. -/
theorem gradOf_backwardList_sum (g : Graph) (l : List Nat)
    (hstab : StabOrder g l)
    (hops : ∀ i ∈ l, ∀ k ∈ prev (getV g i).back, k < g.length ∧ k ≠ i) (j : Nat) :
    gradOf (backwardList g l) j =
      gradOf g j + (l.map (fun i => deriv g i j * gradOf (backwardList g l) i)).sum := by
  induction l generalizing g with
  | nil => simp [backwardList]
  | cons i rest ih =>
      have hbacks : ∀ k, (getV (backwardStep g i) k).back = (getV g k).back :=
        back_backwardStep g i
      have hdatas : ∀ k, (getV (backwardStep g i) k).data = (getV g k).data :=
        data_backwardStep g i
      have hhead : ∀ k ∈ i :: rest, i ∉ prev (getV g k).back :=
        hstab [] i rest rfl
      have hstab' : StabOrder (backwardStep g i) rest := by
        intro l1 i' l2 hdec k hk
        rw [hbacks]
        exact stabOrder_tail hstab l1 i' l2 hdec k hk
      have hops' : ∀ i' ∈ rest, ∀ k ∈ prev (getV (backwardStep g i) i').back,
          k < (backwardStep g i).length ∧ k ≠ i' := by
        intro i' hi' k hk
        rw [hbacks] at hk
        rw [length_backwardStep]
        exact hops i' (List.mem_cons_of_mem _ hi') k hk
      have hstepi := gradOf_backwardStep g i (hops i (List.mem_cons_self _ _))
      have hstable : gradOf (backwardList (backwardStep g i) rest) i = gradOf g i := by
        rw [gradOf_backwardList_other (backwardStep g i) rest (fun k hk => by
          rw [hbacks]; exact hhead k (List.mem_cons_of_mem _ hk))]
        exact gradOf_backwardStep_other g (hhead i (List.mem_cons_self _ _))
      have hBL : backwardList g (i :: rest) = backwardList (backwardStep g i) rest := rfl
      rw [hBL, ih (backwardStep g i) hstab' hops' , List.map_cons, List.sum_cons]
      have hderiv : ∀ k, deriv (backwardStep g i) k j = deriv g k j := fun k =>
        deriv_congr hdatas hbacks k j
      rw [hstable, hstepi j]
      have hmaps : (rest.map fun k => deriv (backwardStep g i) k j *
            gradOf (backwardList (backwardStep g i) rest) k)
          = rest.map fun k => deriv g k j * gradOf (backwardList (backwardStep g i) rest) k := by
        exact List.map_congr_left (fun k _ => by rw [hderiv])
      rw [hmaps]
      ring

/-! Reachability along producer edges, and ordering properties of node
sequences. -/

theorem reach_trans {g : Graph} {i j k : Nat}
    (h1 : Reach g i j) (h2 : Reach g j k) : Reach g i k := by
  induction h2 with
  | refl => exact h1
  | tail _ hk ih => exact Reach.tail ih hk

/-- In a well-formed graph, following producer edges only decreases the
index, so everything reachable from an in-range node is in range and no
larger. -/
theorem reach_le {g : Graph} (hWF : WF g) {i m : Nat} (hi : i < g.length)
    (h : Reach g i m) : m ≤ i ∧ m < g.length := by
  induction h with
  | refl => exact ⟨Nat.le_refl i, hi⟩
  | tail _ hk ih =>
      obtain ⟨hji, hjlen⟩ := ih
      have hkj := hWF _ hjlen _ hk
      exact ⟨Nat.le_of_lt (Nat.lt_of_lt_of_le hkj hji), Nat.lt_trans hkj hjlen⟩

theorem opsBefore_nil (g : Graph) : OpsBefore g [] := by
  intro l1 j l2 hdec
  exact absurd hdec (by simp)

theorem opsBefore_append {g : Graph} {l : List Nat} {i : Nat}
    (hl : OpsBefore g l) (hi : ∀ k ∈ prev (getV g i).back, k ∈ l) :
    OpsBefore g (l ++ [i]) := by
  intro l1 j l2 hdec k hk
  rcases List.eq_nil_or_concat l2 with rfl | ⟨l2', c, rfl⟩
  · obtain ⟨hl1, hji⟩ := List.append_inj' hdec (by rfl)
    cases hji
    subst hl1
    exact hi k hk
  · rw [List.concat_eq_append, ← List.cons_append, ← List.append_assoc] at hdec
    obtain ⟨hl1, hci⟩ := List.append_inj' hdec (by rfl)
    subst hl1
    exact hl l1 j l2' rfl k hk

theorem opsBefore_mem {g : Graph} {l : List Nat} (hl : OpsBefore g l) {j : Nat}
    (hj : j ∈ l) {k : Nat} (hk : k ∈ prev (getV g j).back) : k ∈ l := by
  obtain ⟨s, t, rfl⟩ := List.append_of_mem hj
  exact List.mem_append_left _ (hl s j t rfl k hk)

/-- Specification of the operand loop of the traversal, given the
specification of the recursive call at the same fuel. -/
theorem topoSortList_post (g : Graph) (hWF : WF g) (fuel : Nat)
    (auxIH : ∀ i st, SortPre g [i] fuel st →
      SortPost g [i] st (topoSortAux g fuel i st)) :
    ∀ js st, SortPre g js fuel st →
      SortPost g js st (topoSortList g fuel js st) := by
  intro js
  induction js with
  | nil =>
      intro st pre
      exact { topoExt := ⟨[], by simp [topoSortList]⟩
              visMono := fun m hm => hm
              sub := pre.sub
              nodup := pre.nodup
              ob := pre.ob
              grayEq := fun m => Iff.rfl
              srcIn := fun j hj => absurd hj (List.not_mem_nil j)
              topoNew := fun m hm => Or.inl hm
              visLen := pre.visLen }
  | cons j rest ih =>
      intro st pre
      have prej : SortPre g [j] fuel st :=
        { srcLen := fun j' hj' => pre.srcLen j'
            (by rw [List.mem_singleton] at hj'; rw [hj']; exact List.mem_cons_self _ _)
          srcFuel := fun j' hj' => pre.srcFuel j'
            (by rw [List.mem_singleton] at hj'; rw [hj']; exact List.mem_cons_self _ _)
          gray := fun j' hj' m hm hnm => pre.gray j'
            (by rw [List.mem_singleton] at hj'; rw [hj']; exact List.mem_cons_self _ _)
            m hm hnm
          sub := pre.sub
          nodup := pre.nodup
          ob := pre.ob
          visLen := pre.visLen }
      have post1 := auxIH j st prej
      have prer : SortPre g rest fuel (topoSortAux g fuel j st) :=
        { srcLen := fun j' hj' => pre.srcLen j' (List.mem_cons_of_mem _ hj')
          srcFuel := fun j' hj' => pre.srcFuel j' (List.mem_cons_of_mem _ hj')
          gray := fun j' hj' m hm hnm => by
            have hh := (post1.grayEq m).mp ⟨hm, hnm⟩
            exact pre.gray j' (List.mem_cons_of_mem _ hj') m hh.1 hh.2
          sub := post1.sub
          nodup := post1.nodup
          ob := post1.ob
          visLen := post1.visLen }
      have post2 := ih (topoSortAux g fuel j st) prer
      have heq : topoSortList g fuel (j :: rest) st
          = topoSortList g fuel rest (topoSortAux g fuel j st) := rfl
      rw [heq]
      refine { topoExt := ?_, visMono := ?_, sub := post2.sub, nodup := post2.nodup,
               ob := post2.ob, grayEq := ?_, srcIn := ?_, topoNew := ?_,
               visLen := post2.visLen }
      · obtain ⟨d1, h1⟩ := post1.topoExt
        obtain ⟨d2, h2⟩ := post2.topoExt
        exact ⟨d1 ++ d2, by rw [h2, h1, List.append_assoc]⟩
      · exact fun m hm => post2.visMono m (post1.visMono m hm)
      · exact fun m => (post2.grayEq m).trans (post1.grayEq m)
      · intro j' hj'
        rcases List.mem_cons.mp hj' with rfl | hj'
        · obtain ⟨d2, h2⟩ := post2.topoExt
          rw [h2]
          exact List.mem_append_left _ (post1.srcIn j' (List.mem_singleton_self _))
        · exact post2.srcIn j' hj'
      · intro m hm
        rcases post2.topoNew m hm with hm1 | ⟨j', hj', hr⟩
        · rcases post1.topoNew m hm1 with hm0 | ⟨j0, hj0, hr⟩
          · exact Or.inl hm0
          · rw [List.mem_singleton] at hj0
            exact Or.inr ⟨j, List.mem_cons_self _ _, hj0 ▸ hr⟩
        · exact Or.inr ⟨j', List.mem_cons_of_mem _ hj', hr⟩

/-- Specification of the depth-first traversal on well-formed graphs,
by induction on fuel. -/
theorem topoSortAux_post (g : Graph) (hWF : WF g) :
    ∀ fuel i st, SortPre g [i] fuel st →
      SortPost g [i] st (topoSortAux g fuel i st) := by
  intro fuel
  induction fuel with
  | zero =>
      intro i st pre
      exact absurd (pre.srcFuel i (List.mem_singleton_self i)) (Nat.not_lt_zero i)
  | succ fuel ih =>
      intro i st pre
      have hi : i < g.length := pre.srcLen i (List.mem_singleton_self i)
      have hif : i < fuel + 1 := pre.srcFuel i (List.mem_singleton_self i)
      by_cases hvis : i ∈ st.2
      · have heq : topoSortAux g (fuel + 1) i st = st := by
          rw [topoSortAux, if_pos hvis]
        rw [heq]
        have hitopo : i ∈ st.1 := by
          by_contra hni
          exact absurd (pre.gray i (List.mem_singleton_self i) i hvis hni)
            (lt_irrefl i)
        exact { topoExt := ⟨[], by simp⟩
                visMono := fun m hm => hm
                sub := pre.sub
                nodup := pre.nodup
                ob := pre.ob
                grayEq := fun m => Iff.rfl
                srcIn := fun j hj => by
                  rw [List.mem_singleton] at hj; subst hj; exact hitopo
                topoNew := fun m hm => Or.inl hm
                visLen := pre.visLen }
      · have hni : i ∉ st.1 := fun h => hvis (pre.sub i h)
        have prelist : SortPre g (prev (getV g i).back) fuel (st.1, i :: st.2) :=
          { srcLen := fun k hk => Nat.lt_trans (hWF i hi k hk) hi
            srcFuel := fun k hk =>
              Nat.lt_of_lt_of_le (hWF i hi k hk) (Nat.le_of_lt_succ hif)
            gray := fun k hk m hm hnm => by
              rcases List.mem_cons.mp hm with rfl | hm'
              · exact hWF m hi k hk
              · exact Nat.lt_trans (hWF i hi k hk)
                  (pre.gray i (List.mem_singleton_self i) m hm' hnm)
            sub := fun m hm => List.mem_cons_of_mem _ (pre.sub m hm)
            nodup := pre.nodup
            ob := pre.ob
            visLen := fun m hm => by
              rcases List.mem_cons.mp hm with rfl | hm'
              · exact hi
              · exact pre.visLen m hm' }
        have postlist := topoSortList_post g hWF fuel ih
          (prev (getV g i).back) (st.1, i :: st.2) prelist
        have heq : topoSortAux g (fuel + 1) i st
            = ((topoSortList g fuel (prev (getV g i).back) (st.1, i :: st.2)).1 ++ [i],
               (topoSortList g fuel (prev (getV g i).back) (st.1, i :: st.2)).2) := by
          rw [topoSortAux, if_neg hvis]
          rfl
        rw [heq]
        have hinotin1 : i ∉ (topoSortList g fuel (prev (getV g i).back) (st.1, i :: st.2)).1 :=
          ((postlist.grayEq i).mpr ⟨List.mem_cons_self _ _, hni⟩).2
        have hivis1 : i ∈ (topoSortList g fuel (prev (getV g i).back) (st.1, i :: st.2)).2 :=
          postlist.visMono i (List.mem_cons_self _ _)
        refine { topoExt := ?_, visMono := ?_, sub := ?_, nodup := ?_, ob := ?_,
                 grayEq := ?_, srcIn := ?_, topoNew := ?_, visLen := postlist.visLen }
        · obtain ⟨d, hd⟩ := postlist.topoExt
          exact ⟨d ++ [i], by
            show (topoSortList g fuel (prev (getV g i).back) (st.1, i :: st.2)).1 ++ [i]
                = st.1 ++ (d ++ [i])
            rw [hd, List.append_assoc]⟩
        · exact fun m hm => postlist.visMono m (List.mem_cons_of_mem _ hm)
        · intro m hm
          rcases List.mem_append.mp hm with hm1 | hm2
          · exact postlist.sub m hm1
          · rw [List.mem_singleton] at hm2; subst hm2; exact hivis1
        · exact List.Nodup.append postlist.nodup (List.nodup_singleton i)
            (fun a ha hb => by rw [List.mem_singleton] at hb; subst hb
                               exact hinotin1 ha)
        · exact opsBefore_append postlist.ob (fun k hk => postlist.srcIn k hk)
        · intro m
          constructor
          · rintro ⟨hm2, hm1⟩
            have hmni : m ≠ i := fun he => by
              subst he
              exact hm1 (List.mem_append_right _ (List.mem_singleton_self _))
            have hm1' : m ∉ (topoSortList g fuel (prev (getV g i).back) (st.1, i :: st.2)).1 :=
              fun h => hm1 (List.mem_append_left _ h)
            have hh := (postlist.grayEq m).mp ⟨hm2, hm1'⟩
            rcases List.mem_cons.mp hh.1 with rfl | hm'
            · exact absurd rfl hmni
            · exact ⟨hm', hh.2⟩
          · rintro ⟨hm2, hm1⟩
            have him : i < m := pre.gray i (List.mem_singleton_self i) m hm2 hm1
            have hh := (postlist.grayEq m).mpr ⟨List.mem_cons_of_mem _ hm2, hm1⟩
            refine ⟨hh.1, fun h => ?_⟩
            rcases List.mem_append.mp h with h1 | h2
            · exact hh.2 h1
            · rw [List.mem_singleton] at h2
              subst h2
              exact absurd him (lt_irrefl m)
        · intro j hj
          rw [List.mem_singleton] at hj
          subst hj
          exact List.mem_append_right _ (List.mem_singleton_self _)
        · intro m hm
          rcases List.mem_append.mp hm with hm1 | hm2
          · rcases postlist.topoNew m hm1 with h1 | ⟨k, hk, hr⟩
            · exact Or.inl h1
            · exact Or.inr ⟨i, List.mem_singleton_self i,
                reach_trans (Reach.tail (Reach.refl i) hk) hr⟩
          · rw [List.mem_singleton] at hm2
            subst hm2
            exact Or.inr ⟨m, List.mem_singleton_self m, Reach.refl m⟩

/-- Correctness of the topological sort on a well-formed graph: the
output has no duplicates, contains exactly the nodes reachable from the
root, and places every node strictly after all of its operands. -/
theorem topologicalSort_correct (g : Graph) (hWF : WF g) (root : Nat)
    (hroot : root < g.length) :
    (topologicalSort g root).Nodup ∧
    (∀ m, m ∈ topologicalSort g root ↔ Reach g root m) ∧
    OpsBefore g (topologicalSort g root) := by
  have pre : SortPre g [root] g.length ([], []) :=
    { srcLen := fun j hj => by rw [List.mem_singleton] at hj; rw [hj]; exact hroot
      srcFuel := fun j hj => by rw [List.mem_singleton] at hj; rw [hj]; exact hroot
      gray := fun j _ m hm => absurd hm (List.not_mem_nil m)
      sub := fun m hm => absurd hm (List.not_mem_nil m)
      nodup := List.nodup_nil
      ob := opsBefore_nil g
      visLen := fun m hm => absurd hm (List.not_mem_nil m) }
  have post := topoSortAux_post g hWF g.length root ([], []) pre
  refine ⟨post.nodup, fun m => ⟨fun hm => ?_, fun hr => ?_⟩, post.ob⟩
  · rcases post.topoNew m hm with h0 | ⟨j, hj, hr⟩
    · exact absurd h0 (List.not_mem_nil m)
    · rw [List.mem_singleton] at hj
      exact hj ▸ hr
  · induction hr with
    | refl => exact post.srcIn root (List.mem_singleton_self root)
    | tail _ hk ih => exact opsBefore_mem post.ob ih hk

/-- Elements of the topological sort are in range. -/
theorem topologicalSort_lt (g : Graph) (hWF : WF g) (root : Nat)
    (hroot : root < g.length) :
    ∀ m ∈ topologicalSort g root, m < g.length := by
  intro m hm
  have hr := ((topologicalSort_correct g hWF root hroot).2.1 m).mp hm
  exact (reach_le hWF hroot hr).2

/-! The traversal only inspects producers, so graphs that agree on all
producers sort identically. -/

theorem topoSortAux_congr {g1 g2 : Graph}
    (hb : ∀ i, (getV g1 i).back = (getV g2 i).back) :
    ∀ fuel i st, topoSortAux g1 fuel i st = topoSortAux g2 fuel i st := by
  intro fuel
  induction fuel with
  | zero => intro i st; rfl
  | succ fuel ih =>
      intro i st
      have hfun : (fun (s : List Nat × List Nat) (j : Nat) => topoSortAux g1 fuel j s)
          = (fun s j => topoSortAux g2 fuel j s) :=
        funext fun s => funext fun j => ih j s
      rw [topoSortAux, topoSortAux, hb i, hfun]

/-- Seeding the root's gradient does not change the topological sort. -/
theorem topologicalSort_setGrad (g : Graph) (root : Nat) (v : ℚ) :
    topologicalSort (setGrad g root v) root = topologicalSort g root := by
  unfold topologicalSort
  rw [length_setGrad,
    topoSortAux_congr (fun i => back_setGrad g root v i) g.length]

/-- The reverse of a duplicate-free operands-first order is stable: a
node, once processed, is never an operand of a later-processed node. -/
theorem stabOrder_reverse {g : Graph} {topo : List Nat}
    (hnd : topo.Nodup) (hob : OpsBefore g topo) : StabOrder g topo.reverse := by
  intro l1 i l2 hdec k hk habs
  have htopo : topo = l2.reverse ++ i :: l1.reverse := by
    have h0 := congrArg List.reverse hdec
    simpa [List.reverse_append] using h0
  rcases List.mem_cons.mp hk with rfl | hk2
  · have hia : k ∈ l2.reverse := hob l2.reverse k l1.reverse htopo k habs
    rw [htopo] at hnd
    obtain ⟨-, -, hdisj⟩ := List.nodup_append.mp hnd
    exact hdisj hia (List.mem_cons_self _ _)
  · have hkrev : k ∈ l2.reverse := List.mem_reverse.mpr hk2
    obtain ⟨a, b, hab⟩ := List.append_of_mem hkrev
    have htopo2 : topo = a ++ k :: (b ++ i :: l1.reverse) := by
      rw [htopo, hab]
      simp
    have hia : i ∈ a := hob a k (b ++ i :: l1.reverse) htopo2 i habs
    rw [htopo2] at hnd
    obtain ⟨-, -, hdisj⟩ := List.nodup_append.mp hnd
    exact hdisj hia (List.mem_cons_of_mem _
      (List.mem_append_right _ (List.mem_cons_self _ _)))

/-- The gradient result of the backward pass: the final gradient of
every node `j` is its post-seeding starting gradient plus the sum, over
the processed order, of each processed node's chain-rule contribution to
`j` weighted by that node's own final gradient.  This is the shared
engine fact behind the accumulation claims. -/
theorem backward_grad_sum (g : Graph) (hWF : WF g) (root : Nat)
    (hroot : root < g.length) (j : Nat) :
    gradOf (backward g root) j =
      gradOf (setGrad g root 1) j +
      (((topologicalSort g root).reverse).map
        (fun i => deriv g i j * gradOf (backward g root) i)).sum := by
  have hWF1 : WF (setGrad g root 1) := by
    intro i hi k hk
    rw [length_setGrad] at hi
    rw [back_setGrad] at hk
    exact hWF i hi k hk
  have hb : backward g root
      = backwardList (setGrad g root 1) ((topologicalSort g root).reverse) := by
    show backwardList (setGrad g root 1)
        ((topologicalSort (setGrad g root 1) root).reverse)
      = backwardList (setGrad g root 1) ((topologicalSort g root).reverse)
    rw [topologicalSort_setGrad]
  obtain ⟨hnd, hmem, hob⟩ := topologicalSort_correct g hWF root hroot
  have hob1 : OpsBefore (setGrad g root 1) (topologicalSort g root) := by
    intro l1 j' l2 hdec k hk
    rw [back_setGrad] at hk
    exact hob l1 j' l2 hdec k hk
  have hstab : StabOrder (setGrad g root 1) ((topologicalSort g root).reverse) :=
    stabOrder_reverse hnd hob1
  have hops : ∀ i ∈ (topologicalSort g root).reverse,
      ∀ k ∈ prev (getV (setGrad g root 1) i).back,
        k < (setGrad g root 1).length ∧ k ≠ i := by
    intro i hi k hk
    rw [List.mem_reverse] at hi
    have hilen := topologicalSort_lt g hWF root hroot i hi
    rw [back_setGrad] at hk
    have hki := hWF i hilen k hk
    rw [length_setGrad]
    exact ⟨Nat.lt_trans hki hilen, Nat.ne_of_lt hki⟩
  have hsum := gradOf_backwardList_sum (setGrad g root 1)
    ((topologicalSort g root).reverse) hstab hops j
  rw [hb, hsum]
  have hmap : ((topologicalSort g root).reverse.map
        (fun i => deriv (setGrad g root 1) i j *
          gradOf (backwardList (setGrad g root 1) ((topologicalSort g root).reverse)) i))
      = ((topologicalSort g root).reverse.map
        (fun i => deriv g i j *
          gradOf (backwardList (setGrad g root 1) ((topologicalSort g root).reverse)) i)) := by
    refine List.map_congr_left (fun k _ => ?_)
    rw [deriv_congr (data_setGrad g root 1) (back_setGrad g root 1) k j]
  rw [hmap]

/-- The root's gradient after the backward pass is exactly the seed 1:
in a well-formed graph no node reachable from the root consumes the
root, so no step touches its gradient after seeding. -/
theorem backward_grad_root (g : Graph) (hWF : WF g) (root : Nat)
    (hroot : root < g.length) : gradOf (backward g root) root = 1 := by
  have hb : backward g root
      = backwardList (setGrad g root 1) ((topologicalSort g root).reverse) := by
    show backwardList (setGrad g root 1)
        ((topologicalSort (setGrad g root 1) root).reverse)
      = backwardList (setGrad g root 1) ((topologicalSort g root).reverse)
    rw [topologicalSort_setGrad]
  obtain ⟨-, hmem, -⟩ := topologicalSort_correct g hWF root hroot
  rw [hb, gradOf_backwardList_other]
  · exact gradOf_setGrad_self hroot
  · intro k hk habs
    rw [List.mem_reverse] at hk
    have hr := (hmem k).mp hk
    have hkle := (reach_le hWF hroot hr).1
    have hklen := (reach_le hWF hroot hr).2
    rw [back_setGrad] at habs
    exact absurd (hWF k hklen root habs) (Nat.not_lt.mpr hkle)

/-! Remaining helper facts for the individual claims. -/

theorem getV_ge {g : Graph} {i : Nat} (h : g.length ≤ i) : getV g i = defaultValue := by
  induction g generalizing i with
  | nil => cases i <;> rfl
  | cons a l ih =>
      cases i with
      | zero => simp at h
      | succ n => exact ih (Nat.le_of_succ_le_succ h)

theorem expOnly_deriv_zero {g : Graph} {y : Nat} (h : expOnly g y = true)
    (i : Nat) : deriv g i y = 0 := by
  by_cases hi : i < g.length
  · have hall := (List.all_eq_true.mp h) i (List.mem_range.mpr hi)
    rcases hb : (getV g i).back with _ | ⟨x, y'⟩ | ⟨x, y'⟩ | ⟨x, y'⟩ | x <;>
      rw [hb] at hall <;> simp only [deriv, hb]
    · have hm : y ∉ prev (Op.sum x y') := of_decide_eq_true hall
      simp only [prev, List.mem_cons, List.not_mem_nil, or_false] at hm
      push_neg at hm
      rw [if_neg (fun hxy : x = y => hm.1 hxy.symm),
        if_neg (fun hyy : y' = y => hm.2 hyy.symm), add_zero]
    · have hm : y ∉ prev (Op.mul x y') := of_decide_eq_true hall
      simp only [prev, List.mem_cons, List.not_mem_nil, or_false] at hm
      push_neg at hm
      rw [if_neg (fun hxy : x = y => hm.1 hxy.symm),
        if_neg (fun hyy : y' = y => hm.2 hyy.symm), add_zero]
    · have hx : x ≠ y := of_decide_eq_true hall
      rw [if_neg hx]
    · have hm : y ∉ prev (Op.tanh x) := of_decide_eq_true hall
      simp only [prev, List.mem_cons, List.not_mem_nil, or_false] at hm
      rw [if_neg (fun hxy : x = y => hm hxy.symm)]
  · simp [deriv, getV_ge (Nat.le_of_not_lt hi), defaultValue]

/-- A node consumed only as a Pow exponent receives no gradient from the
backward pass: its gradient is exactly what it was before. -/
theorem backward_exp_unchanged (g : Graph) (hWF : WF g) (root y : Nat)
    (hroot : root < g.length) (hexp : expOnly g y = true) (hne : y ≠ root) :
    gradOf (backward g root) y = gradOf g y := by
  rw [backward_grad_sum g hWF root hroot y,
    gradOf_setGrad_ne (fun h => hne h.symm)]
  have hz : ((topologicalSort g root).reverse.map
      (fun i => deriv g i y * gradOf (backward g root) i)).sum = 0 := by
    apply List.sum_eq_zero
    intro q hq
    obtain ⟨i, -, rfl⟩ := List.mem_map.mp hq
    rw [expOnly_deriv_zero hexp i, zero_mul]
  rw [hz, add_zero]

theorem wf_backward (g : Graph) (hWF : WF g) (root : Nat) :
    WF (backward g root) := by
  intro i hi k hk
  rw [length_backward] at hi
  rw [back_backward] at hk
  exact hWF i hi k hk

/-- A backward pass does not change the topological sort, because it
mutates no producer. -/
theorem topologicalSort_backward (g : Graph) (root root' : Nat) :
    topologicalSort (backward g root') root = topologicalSort g root := by
  unfold topologicalSort
  rw [length_backward, topoSortAux_congr (fun i => back_backward g root' i) g.length]

/-- Accumulation across a second backward call on the same root: the
gradients of the first pass are the starting point of the second, which
adds its contributions on top of them with no reset. -/
theorem backward_twice_grad_sum (g : Graph) (hWF : WF g) (root : Nat)
    (hroot : root < g.length) (j : Nat) :
    gradOf (backward (backward g root) root) j =
      gradOf (setGrad (backward g root) root 1) j +
      (((topologicalSort g root).reverse).map
        (fun i => deriv g i j * gradOf (backward (backward g root) root) i)).sum := by
  have h2 := backward_grad_sum (backward g root) (wf_backward g hWF root) root
    (by rw [length_backward]; exact hroot) j
  rw [h2, topologicalSort_backward]
  have hmap : ((topologicalSort g root).reverse.map
        (fun i => deriv (backward g root) i j *
          gradOf (backward (backward g root) root) i))
      = ((topologicalSort g root).reverse.map
        (fun i => deriv g i j * gradOf (backward (backward g root) root) i)) := by
    refine List.map_congr_left (fun k _ => ?_)
    rw [deriv_congr (data_backward g root) (back_backward g root) k j]
  rw [hmap]

/-- From a producerless node the traversal visits exactly that node. -/
theorem topologicalSort_leaf (g : Graph) (root : Nat) (hroot : root < g.length)
    (h : (getV g root).back = Op.none) : topologicalSort g root = [root] := by
  unfold topologicalSort
  obtain ⟨n, hn⟩ : ∃ n, g.length = n + 1 := ⟨g.length - 1, by omega⟩
  rw [hn, topoSortAux]
  simp [h, prev, topoSortList]

/-- Backward on a producerless node only seeds its gradient. -/
theorem backward_leaf (g : Graph) (root : Nat) (hroot : root < g.length)
    (h : (getV g root).back = Op.none) : backward g root = setGrad g root 1 := by
  have hb : backward g root = backwardList (setGrad g root 1)
      ((topologicalSort (setGrad g root 1) root).reverse) := rfl
  rw [hb, topologicalSort_leaf (setGrad g root 1) root
    (by rw [length_setGrad]; exact hroot) (by rw [back_setGrad]; exact h)]
  show backwardStep (setGrad g root 1) root = setGrad g root 1
  have hb2 : (getV (setGrad g root 1) root).back = Op.none := by
    rw [back_setGrad]; exact h
  simp [backwardStep, hb2]

/-- The model of `powf` at exponent -1 is the field inverse (sending 0
to 0, the rational idealization of the division-by-zero edge case). -/
theorem powf_neg_one (x : ℚ) : powf x (-1) = x⁻¹ := by
  simp [powf]

/-- Symbolic evaluation of the backward pass on a single tanh node over
a leaf: the leaf collects its pre-seeded gradient plus one minus the
square of the tanh node's stored value, times the seed 1. -/
theorem backward_tanh_two (d g0 t : ℚ) :
    gradOf (backward [⟨d, g0, Op.none⟩, ⟨t, 0, Op.tanh 0⟩] 1) 0
      = g0 + (1 - t ^ 2) * 1 := by
  simp [backward, topologicalSort, topoSortAux, topoSortList, backwardList,
    backwardStep, setGrad, addGrad, getV, prev, gradOf, List.getD]

/-- Numeric bound for the tanh scenario: if the stored tanh value is
within 1e-16 of the reference value of tanh(0.8814), then 0.5 plus the
tanh derivative is within 1e-12 of the figure asserted by the test. -/
theorem tanh_grad_bound (t' : ℚ)
    (h : |t' - 7071199874301226/10000000000000000| ≤ 1/10000000000000000) :
    |1/2 + (1 - t' ^ 2) * 1 - 9999813233768232/10000000000000000|
      ≤ 1/1000000000000 := by
  rw [abs_le] at h ⊢
  obtain ⟨h1, h2⟩ := h
  constructor <;>
    nlinarith [sq_nonneg (t' - 7071199874301226/10000000000000000), sq_nonneg t']

/-- The value of a difference node is the difference of the operand
values: the composite `sum(x, product(y, leaf(-1)))` computes it. -/
theorem subT_data (g : Graph) (x y : Nat) (hx : x < g.length) (hy : y < g.length) :
    (getV (subT g x y).1 (subT g x y).2).data
      = (getV g x).data - (getV g y).data := by
  have hG1 : (g ++ [(⟨-1, 0, Op.none⟩ : Value)]).length = g.length + 1 := by simp
  have hxx : x < (g ++ [(⟨-1, 0, Op.none⟩ : Value)]).length := by rw [hG1]; omega
  show (getV (((g ++ [(⟨-1, 0, Op.none⟩ : Value)])
        ++ [⟨(getV (g ++ [(⟨-1, 0, Op.none⟩ : Value)]) y).data
              * (getV (g ++ [(⟨-1, 0, Op.none⟩ : Value)]) g.length).data, 0,
            Op.mul y g.length⟩])
        ++ [⟨(getV ((g ++ [(⟨-1, 0, Op.none⟩ : Value)])
                ++ [⟨(getV (g ++ [(⟨-1, 0, Op.none⟩ : Value)]) y).data
                      * (getV (g ++ [(⟨-1, 0, Op.none⟩ : Value)]) g.length).data, 0,
                    Op.mul y g.length⟩]) x).data
              + (getV ((g ++ [(⟨-1, 0, Op.none⟩ : Value)])
                  ++ [⟨(getV (g ++ [(⟨-1, 0, Op.none⟩ : Value)]) y).data
                        * (getV (g ++ [(⟨-1, 0, Op.none⟩ : Value)]) g.length).data, 0,
                      Op.mul y g.length⟩]) (g ++ [(⟨-1, 0, Op.none⟩ : Value)]).length).data,
            0, Op.sum x (g ++ [(⟨-1, 0, Op.none⟩ : Value)]).length⟩])
      ((g ++ [(⟨-1, 0, Op.none⟩ : Value)]
        ++ [(⟨(getV (g ++ [(⟨-1, 0, Op.none⟩ : Value)]) y).data
              * (getV (g ++ [(⟨-1, 0, Op.none⟩ : Value)]) g.length).data, 0,
            Op.mul y g.length⟩ : Value)]).length)).data
    = (getV g x).data - (getV g y).data
  rw [getV_append_self, getV_append_self, getV_append_lt _ hxx,
    getV_append_lt _ hx, getV_append_lt _ hy, getV_append_self]
  show (getV g x).data + (getV g y).data * (-1 : ℚ) = _
  ring

/-- The value of a quotient node is the product of the numerator value
with the inverse of the denominator value: the composite
`product(x, power(y, -1))` computes it (with inverse of zero being zero
in the rational idealization). -/
theorem divT_data (g : Graph) (x y : Nat) (hx : x < g.length) (hy : y < g.length) :
    (getV (divT g x y).1 (divT g x y).2).data
      = (getV g x).data * ((getV g y).data)⁻¹ := by
  have hG1 : (g ++ [(⟨-1, 0, Op.none⟩ : Value)]).length = g.length + 1 := by simp
  have hxx : x < (g ++ [(⟨-1, 0, Op.none⟩ : Value)]).length := by rw [hG1]; omega
  show (getV (((g ++ [(⟨-1, 0, Op.none⟩ : Value)])
        ++ [⟨powf (getV g y).data (-1), 0, Op.pow y g.length⟩])
        ++ [⟨(getV ((g ++ [(⟨-1, 0, Op.none⟩ : Value)])
                ++ [⟨powf (getV g y).data (-1), 0, Op.pow y g.length⟩]) x).data
              * (getV ((g ++ [(⟨-1, 0, Op.none⟩ : Value)])
                  ++ [⟨powf (getV g y).data (-1), 0, Op.pow y g.length⟩])
                  (g ++ [(⟨-1, 0, Op.none⟩ : Value)]).length).data,
            0, Op.mul x (g ++ [(⟨-1, 0, Op.none⟩ : Value)]).length⟩])
      ((g ++ [(⟨-1, 0, Op.none⟩ : Value)]
        ++ [(⟨powf (getV g y).data (-1), 0, Op.pow y g.length⟩ : Value)]).length)).data
    = (getV g x).data * ((getV g y).data)⁻¹
  rw [getV_append_self, getV_append_self, getV_append_lt _ hxx, getV_append_lt _ hx]
  show (getV g x).data * powf (getV g y).data (-1) = _
  rw [powf_neg_one]

/-- Forward value of a tanh node: the tanh value function applied to
the operand's stored value. -/
theorem tanhT_data (th : ℚ → ℚ) (g : Graph) (x : Nat) :
    (getV (tanhT th g x).1 (tanhT th g x).2).data = th ((getV g x).data) := by
  show (getV (g ++ [⟨th ((getV g x).data), 0, Op.tanh x⟩]) g.length).data
      = th ((getV g x).data)
  rw [getV_append_self]

/-! The claims. -/

/-- C1: in the diamond-sharing scenario a = leaf 3, b = leaf 3,
c = leaf 2, x = sum(product(a,b), product(c, product(a,b))) (built
exactly as the source test builds it), the backward pass leaves
gradients 9 on a, b and c; and in general, on any well-formed graph,
every node's post-backward gradient equals its post-seeding starting
gradient plus the sum of the independent chain-rule contributions of all
of its consumers in the processed order, each weighted by that
consumer's own final gradient. -/
theorem c1_diamond_sharing_accumulates :
    (gradOf (backward c1Build.1 c1Build.2) 0 = 9 ∧
     gradOf (backward c1Build.1 c1Build.2) 1 = 9 ∧
     gradOf (backward c1Build.1 c1Build.2) 2 = 9) ∧
    (∀ g root j, WF g → root < g.length →
      gradOf (backward g root) j =
        gradOf (setGrad g root 1) j +
        (((topologicalSort g root).reverse).map
          (fun i => deriv g i j * gradOf (backward g root) i)).sum) := by
  constructor
  · refine ⟨?_, ?_, ?_⟩ <;>
      norm_num [c1Build, backward, topologicalSort, topoSortAux, topoSortList,
        backwardList, backwardStep, setGrad, addGrad, getV, prev, gradOf,
        leafT, mulT, addT, List.getD]
  · exact fun g root j hWF hroot => backward_grad_sum g hWF root hroot j

/-- C1 witness: the accumulation equation instantiated at leaf a of the
diamond graph, with the well-formedness hypotheses checked by
computation. -/
theorem c1_diamond_sharing_accumulates_witness :
    WF c1Build.1 ∧ c1Build.2 < c1Build.1.length ∧
    gradOf (backward c1Build.1 c1Build.2) 0 =
      gradOf (setGrad c1Build.1 c1Build.2 1) 0 +
      (((topologicalSort c1Build.1 c1Build.2).reverse).map
        (fun i => deriv c1Build.1 i 0 * gradOf (backward c1Build.1 c1Build.2) i)).sum :=
  ⟨by decide, by decide,
    c1_diamond_sharing_accumulates.2 c1Build.1 c1Build.2 0 (by decide) (by decide)⟩

/-- C2: on a well-formed graph the topological sort from any in-range
root lists each node reachable from the root by producer edges exactly
once (no duplicates), and every listed node comes strictly after all
nodes it references as operands. -/
theorem c2_topological_sort_spec (g : Graph) (root : Nat)
    (hWF : WF g) (hroot : root < g.length) :
    (topologicalSort g root).Nodup ∧
    (∀ m, m ∈ topologicalSort g root ↔ Reach g root m) ∧
    OpsBefore g (topologicalSort g root) :=
  topologicalSort_correct g hWF root hroot

/-- C2 witness: the sort of the diamond graph is duplicate-free and
operands-first, and membership of leaf a coincides with reachability. -/
theorem c2_topological_sort_spec_witness :
    WF c1Build.1 ∧ c1Build.2 < c1Build.1.length ∧
    (topologicalSort c1Build.1 c1Build.2).Nodup ∧
    OpsBefore c1Build.1 (topologicalSort c1Build.1 c1Build.2) ∧
    (0 ∈ topologicalSort c1Build.1 c1Build.2 ↔ Reach c1Build.1 c1Build.2 0) :=
  ⟨by decide, by decide,
    (c2_topological_sort_spec c1Build.1 c1Build.2 (by decide) (by decide)).1,
    (c2_topological_sort_spec c1Build.1 c1Build.2 (by decide) (by decide)).2.2,
    (c2_topological_sort_spec c1Build.1 c1Build.2 (by decide) (by decide)).2.1 0⟩

/-- C3: the backward pass seeds the root gradient to 1 (and in a
well-formed graph the root keeps gradient exactly 1), processes the
reverse of the topological order, and each step adds local derivative
times the node's current gradient into each operand's gradient; in the
pre-seeded sum scenario a = leaf(0, grad 0.1), b = leaf(0, grad 0.2),
backward(sum(a,b)) gives a.gradient = 1.1 and b.gradient = 1.2. -/
theorem c3_backward_contract :
    (gradOf (backward c3Build.1 c3Build.2) 0 = 11/10 ∧
     gradOf (backward c3Build.1 c3Build.2) 1 = 6/5) ∧
    (∀ g root, WF g → root < g.length → gradOf (backward g root) root = 1) ∧
    (∀ g root, backward g root
        = backwardList (setGrad g root 1)
            ((topologicalSort (setGrad g root 1) root).reverse)) ∧
    (∀ g i j, (∀ k ∈ prev (getV g i).back, k < g.length ∧ k ≠ i) →
      gradOf (backwardStep g i) j = gradOf g j + deriv g i j * gradOf g i) := by
  refine ⟨⟨?_, ?_⟩, fun g root hWF hroot => backward_grad_root g hWF root hroot,
    fun g root => rfl, fun g i j hops => gradOf_backwardStep g i hops j⟩ <;>
    norm_num [c3Build, backward, topologicalSort, topoSortAux, topoSortList,
      backwardList, backwardStep, setGrad, addGrad, getV, prev, gradOf,
      leafT, addT, List.getD]

/-- C3 witness: on the sum scenario the root's final gradient is 1 and
the step characterization holds at the root node. -/
theorem c3_backward_contract_witness :
    WF c3Build.1 ∧ c3Build.2 < c3Build.1.length ∧
    gradOf (backward c3Build.1 c3Build.2) c3Build.2 = 1 ∧
    gradOf (backwardStep c3Build.1 c3Build.2) 0
      = gradOf c3Build.1 0 + deriv c3Build.1 c3Build.2 0 * gradOf c3Build.1 c3Build.2 :=
  ⟨by decide, by decide,
    c3_backward_contract.2.1 c3Build.1 c3Build.2 (by decide) (by decide),
    c3_backward_contract.2.2.2 c3Build.1 c3Build.2 0 (by decide)⟩

/-- C4: a Power node's backward step adds exponent-value times
base-value to the power exponent-minus-one, times the node's own
gradient, into the base's gradient and leaves the exponent node's
gradient untouched; a node consumed only as a Pow exponent keeps its
gradient across any backward pass; and in the scenario a = leaf(2,
grad 0.1), x = power(a, 3), backward gives a.gradient = 12.1 and leaves
the exponent leaf's gradient 0. -/
theorem c4_pow_rule :
    (gradOf (backward c4Build.1 c4Build.2) 0 = 121/10 ∧
     gradOf (backward c4Build.1 c4Build.2) 1 = 0) ∧
    (∀ g i x y, (getV g i).back = Op.pow x y → x < g.length → x ≠ y →
      gradOf (backwardStep g i) x
        = gradOf g x
          + (getV g y).data * powf (getV g x).data ((getV g y).data - 1) * gradOf g i ∧
      gradOf (backwardStep g i) y = gradOf g y) ∧
    (∀ g root y, WF g → root < g.length → expOnly g y = true → y ≠ root →
      gradOf (backward g root) y = gradOf g y) := by
  refine ⟨⟨?_, ?_⟩, ?_, fun g root y hWF hroot hexp hne =>
    backward_exp_unchanged g hWF root y hroot hexp hne⟩
  · norm_num [c4Build, backward, topologicalSort, topoSortAux, topoSortList,
      backwardList, backwardStep, setGrad, addGrad, getV, prev, gradOf,
      leafT, powT, powf, List.getD]
  · norm_num [c4Build, backward, topologicalSort, topoSortAux, topoSortList,
      backwardList, backwardStep, setGrad, addGrad, getV, prev, gradOf,
      leafT, powT, powf, List.getD]
  · intro g i x y hb hx hxy
    constructor
    · simp only [backwardStep, hb]
      rw [gradOf_addGrad_self hx]
      rfl
    · simp only [backwardStep, hb]
      rw [gradOf_addGrad_ne hxy]

/-- C4 witness: the Pow step rule and the exponent-frame property
instantiated on the power scenario graph, whose exponent leaf is node 1
and whose Pow node is node 2. -/
theorem c4_pow_rule_witness :
    ((getV c4Build.1 2).back = Op.pow 0 1 ∧ 0 < c4Build.1.length ∧ (0 : Nat) ≠ 1 ∧
     gradOf (backwardStep c4Build.1 2) 0
       = gradOf c4Build.1 0
         + (getV c4Build.1 1).data * powf (getV c4Build.1 0).data
             ((getV c4Build.1 1).data - 1) * gradOf c4Build.1 2 ∧
     gradOf (backwardStep c4Build.1 2) 1 = gradOf c4Build.1 1) ∧
    (WF c4Build.1 ∧ c4Build.2 < c4Build.1.length ∧ expOnly c4Build.1 1 = true ∧
     (1 : Nat) ≠ c4Build.2 ∧
     gradOf (backward c4Build.1 c4Build.2) 1 = gradOf c4Build.1 1) :=
  ⟨⟨by decide, by decide, by decide,
    (c4_pow_rule.2.1 c4Build.1 2 0 1 (by decide) (by decide) (by decide)).1,
    (c4_pow_rule.2.1 c4Build.1 2 0 1 (by decide) (by decide) (by decide)).2⟩,
   ⟨by decide, by decide, by decide, by decide,
    c4_pow_rule.2.2 c4Build.1 c4Build.2 1 (by decide) (by decide) (by decide) (by decide)⟩⟩

/-- C5 counterexample: with the gradient of a = leaf(0.8814) starting
at 0, as the claim words it, the backward pass through tanh leaves
a.gradient near 0.49998, nowhere near the claimed 0.9999813233768232
(the tanh value is modelled by its 16-digit rational reference). -/
theorem c5_tanh_scenario_counterexample :
    gradOf (backward c5Build0.1 c5Build0.2) 0 < 1/2 ∧
    9999813233768232/10000000000000000
      - gradOf (backward c5Build0.1 c5Build0.2) 0 > 2/5 := by
  constructor <;>
    norm_num [c5Build0, thB, backward, topologicalSort, topoSortAux, topoSortList,
      backwardList, backwardStep, setGrad, addGrad, getV, prev, gradOf,
      leafT, tanhT, List.getD]

/-- C5 (amended): tanh produces a node whose stored value is the tanh
value function applied to the operand's value, its backward step adds
one minus the square of the node's own stored value, times the node's
gradient, into the operand's gradient (reusing the stored forward
value), and in the source test's scenario — a = leaf(0.8814) with
gradient pre-seeded to 0.5 — the final gradient of a is within 1e-12 of
0.9999813233768232 whenever the tanh value is within 1e-16 of the
reference value of tanh(0.8814). -/
theorem c5_tanh_value_and_derivative (th : ℚ → ℚ) :
    (∀ g x, (getV (tanhT th g x).1 (tanhT th g x).2).data = th ((getV g x).data)) ∧
    (∀ g i x, (getV g i).back = Op.tanh x → x < g.length →
      gradOf (backwardStep g i) x
        = gradOf g x + (1 - (getV g i).data ^ 2) * gradOf g i) ∧
    (|th (4407/5000) - 7071199874301226/10000000000000000| ≤ 1/10000000000000000 →
      |gradOf (backward (c5BuildG th).1 (c5BuildG th).2) 0
        - 9999813233768232/10000000000000000| ≤ 1/1000000000000) := by
  refine ⟨tanhT_data th, ?_, ?_⟩
  · intro g i x hb hx
    simp only [backwardStep, hb]
    rw [gradOf_addGrad_self hx]
    rfl
  · intro hth
    have he : gradOf (backward (c5BuildG th).1 (c5BuildG th).2) 0
        = 1/2 + (1 - (th (4407/5000)) ^ 2) * 1 :=
      backward_tanh_two (4407/5000) (1/2) (th (4407/5000))
    rw [he]
    exact tanh_grad_bound (th (4407/5000)) hth

/-- C5 witness: the amended theorem instantiated at the reference
rational tanh value. -/
theorem c5_tanh_value_and_derivative_witness :
    ((getV (c5BuildG thB).1 1).back = Op.tanh 0 ∧ 0 < (c5BuildG thB).1.length ∧
     gradOf (backwardStep (c5BuildG thB).1 1) 0
       = gradOf (c5BuildG thB).1 0
         + (1 - (getV (c5BuildG thB).1 1).data ^ 2) * gradOf (c5BuildG thB).1 1) ∧
    (|thB (4407/5000) - 7071199874301226/10000000000000000| ≤ 1/10000000000000000 ∧
     |gradOf (backward (c5BuildG thB).1 (c5BuildG thB).2) 0
       - 9999813233768232/10000000000000000| ≤ 1/1000000000000) :=
  ⟨⟨by decide, by decide,
    (c5_tanh_value_and_derivative thB).2.1 (c5BuildG thB).1 1 0 (by decide) (by decide)⟩,
   ⟨by simp [thB], (c5_tanh_value_and_derivative thB).2.2 (by simp [thB])⟩⟩

/-- C6: difference is exactly the composition sum(x, product(y,
leaf(-1))) and quotient is exactly the composition product(x,
power(y, -1)); their node values are x.value - y.value and
x.value * y.value⁻¹; and their gradients follow from the primitive
rules alone, as the two source tests check. -/
theorem c6_composites :
    (∀ g x y, subT g x y
        = addT (mulT (leafT g (-1) 0).1 y (leafT g (-1) 0).2).1 x
            (mulT (leafT g (-1) 0).1 y (leafT g (-1) 0).2).2 ∧
      divT g x y
        = mulT (powT g y (-1)).1 x (powT g y (-1)).2) ∧
    (∀ g x y, x < g.length → y < g.length →
      (getV (subT g x y).1 (subT g x y).2).data
          = (getV g x).data - (getV g y).data ∧
      (getV (divT g x y).1 (divT g x y).2).data
          = (getV g x).data * ((getV g y).data)⁻¹) ∧
    (gradOf (backward subBuild.1 subBuild.2) 0 = 3/2 ∧
     gradOf (backward subBuild.1 subBuild.2) 1 = -(3/2)) ∧
    (gradOf (backward divBuild.1 divBuild.2) 0 = 3/5 ∧
     gradOf (backward divBuild.1 divBuild.2) 1 = -(13/20)) := by
  refine ⟨fun g x y => ⟨rfl, rfl⟩,
    fun g x y hx hy => ⟨subT_data g x y hx hy, divT_data g x y hx hy⟩,
    ⟨?_, ?_⟩, ⟨?_, ?_⟩⟩ <;>
    norm_num [subBuild, divBuild, subT, divT, backward, topologicalSort, topoSortAux,
      topoSortList, backwardList, backwardStep, setGrad, addGrad, getV, prev, gradOf,
      leafT, addT, mulT, powT, powf, List.getD]

/-- C6 witness: the value equations instantiated at the two leaves of
the sum-scenario graph. -/
theorem c6_composites_witness :
    0 < c3Build.1.length ∧ 1 < c3Build.1.length ∧
    (getV (subT c3Build.1 0 1).1 (subT c3Build.1 0 1).2).data
        = (getV c3Build.1 0).data - (getV c3Build.1 1).data ∧
    (getV (divT c3Build.1 0 1).1 (divT c3Build.1 0 1).2).data
        = (getV c3Build.1 0).data * ((getV c3Build.1 1).data)⁻¹ :=
  ⟨by decide, by decide,
    (c6_composites.2.1 c3Build.1 0 1 (by decide) (by decide)).1,
    (c6_composites.2.1 c3Build.1 0 1 (by decide) (by decide)).2⟩

/-- C7: gradient accumulators are only ever added to, never
overwritten, and backward performs no reset: calling backward twice on
the same root stacks the second pass's contributions on the first
pass's gradients (on the sum scenario the gradients go from 1.1 and 1.2
to 2.1 and 2.2). -/
theorem c7_gradient_accumulation_across_calls :
    (gradOf (backward (backward c3Build.1 c3Build.2) c3Build.2) 0 = 21/10 ∧
     gradOf (backward (backward c3Build.1 c3Build.2) c3Build.2) 1 = 11/5) ∧
    (∀ g i v, i < g.length → gradOf (addGrad g i v) i = gradOf g i + v) ∧
    (∀ g root j, WF g → root < g.length →
      gradOf (backward (backward g root) root) j =
        gradOf (setGrad (backward g root) root 1) j +
        (((topologicalSort g root).reverse).map
          (fun i => deriv g i j * gradOf (backward (backward g root) root) i)).sum) := by
  refine ⟨⟨?_, ?_⟩, fun g i v h => gradOf_addGrad_self h,
    fun g root j hWF hroot => backward_twice_grad_sum g hWF root hroot j⟩ <;>
    norm_num [c3Build, backward, topologicalSort, topoSortAux, topoSortList,
      backwardList, backwardStep, setGrad, addGrad, getV, prev, gradOf,
      leafT, addT, List.getD]

/-- C7 witness: strict accumulation at leaf a and the second-pass
equation at leaf a of the sum scenario. -/
theorem c7_gradient_accumulation_across_calls_witness :
    WF c3Build.1 ∧ c3Build.2 < c3Build.1.length ∧ 0 < c3Build.1.length ∧
    gradOf (addGrad c3Build.1 0 5) 0 = gradOf c3Build.1 0 + 5 ∧
    gradOf (backward (backward c3Build.1 c3Build.2) c3Build.2) 0 =
      gradOf (setGrad (backward c3Build.1 c3Build.2) c3Build.2 1) 0 +
      (((topologicalSort c3Build.1 c3Build.2).reverse).map
        (fun i => deriv c3Build.1 i 0 *
          gradOf (backward (backward c3Build.1 c3Build.2) c3Build.2) i)).sum :=
  ⟨by decide, by decide, by decide,
    c7_gradient_accumulation_across_calls.2.1 c3Build.1 0 5 (by decide),
    c7_gradient_accumulation_across_calls.2.2 c3Build.1 c3Build.2 0
      (by decide) (by decide)⟩

/-- C9: the backward pass mutates only gradients: every node keeps its
value, its producer edges, and the graph its length, whatever the root
and whatever the graph. -/
theorem c9_backward_mutates_only_gradients (g : Graph) (root i : Nat) :
    (getV (backward g root) i).data = (getV g i).data ∧
    (getV (backward g root) i).back = (getV g i).back ∧
    (backward g root).length = g.length :=
  ⟨data_backward g root i, back_backward g root i, length_backward g root⟩

/-- C10: backward on a producerless node sets that node's gradient to
exactly 1, overwriting any pre-seeded gradient, leaves its value
unchanged, and mutates no other node. -/
theorem c10_backward_on_leaf (g : Graph) (root : Nat) (hroot : root < g.length)
    (hleaf : (getV g root).back = Op.none) :
    gradOf (backward g root) root = 1 ∧
    (getV (backward g root) root).data = (getV g root).data ∧
    ∀ j, j ≠ root → getV (backward g root) j = getV g j := by
  rw [backward_leaf g root hroot hleaf]
  refine ⟨gradOf_setGrad_self hroot, data_setGrad g root 1 root, fun j hj => ?_⟩
  exact getV_set_ne g _ (Ne.symm hj)

/-- C10 witness: on a one-node graph holding a leaf with pre-seeded
gradient one half, backward overwrites the gradient to 1 and keeps the
value. -/
theorem c10_backward_on_leaf_witness :
    0 < ([⟨5, 1/2, Op.none⟩] : Graph).length ∧
    (getV ([⟨5, 1/2, Op.none⟩] : Graph) 0).back = Op.none ∧
    gradOf (backward [⟨5, 1/2, Op.none⟩] 0) 0 = 1 ∧
    (getV (backward [⟨5, 1/2, Op.none⟩] 0) 0).data
      = (getV ([⟨5, 1/2, Op.none⟩] : Graph) 0).data :=
  ⟨by decide, by decide,
    (c10_backward_on_leaf [⟨5, 1/2, Op.none⟩] 0 (by decide) (by decide)).1,
    (c10_backward_on_leaf [⟨5, 1/2, Op.none⟩] 0 (by decide) (by decide)).2.1⟩

end Autograd
